import Mathlib

/-!
Shallow embedding of the cache parser and table builder of
`dns_unbound_cache_reader.py` (function `update_dns_table` and the regex
patterns it uses).  The transport part of the Python function (shelling out
to `unbound-control`, SSH, reading a file) only produces the list of cache
lines; the embedding takes that list as input, exactly as the parsing core
receives it after `split("\n")`.

Python dictionaries are embedded as insertion-ordered association lists:
assigning to an existing key overwrites its value in place, assigning a new
key appends it at the end.  Regex matching (`re.match`, hence anchored at
the start only) is embedded by direct matchers that reproduce the
backtracking order of the Python patterns.
-/

/-! ### Character classes used by the regex patterns -/

/-- Python `\s` on the ASCII whitespace characters (the inputs contain no
other whitespace; lines were produced by `split("\n")`). -/
def isWs (c : Char) : Bool :=
  c == ' ' || c == '\t' || c == '\n' || c == '\r' || c == '\x0b' || c == '\x0c'

/-- Character class `[a-zA-Z0-9._-]` of the qname group of `pattern_line`. -/
def isNameChar (c : Char) : Bool :=
  c.isAlphanum || c == '.' || c == '_' || c == '-'

/-- Character class `[a-zA-Z0-9.-]` of the target group of `pattern_srv`. -/
def isSrvTargetChar (c : Char) : Bool :=
  c.isAlphanum || c == '.' || c == '-'

/-! ### Elementary matchers -/

/-- Greedy span of a character class: the maximal prefix satisfying `p`
together with the rest (semantics of a leading `class*` in a regex). -/
def spanCh (p : Char → Bool) : List Char → List Char × List Char
  | [] => ([], [])
  | c :: cs =>
    if p c then
      let x := spanCh p cs
      (c :: x.1, x.2)
    else ([], c :: cs)

/-- Matcher for `class+`: fails when the maximal span is empty.  For the
patterns embedded here the character class is always disjoint from the
class that follows it, so the greedy maximal span is the only one the
Python engine can accept (backtracking to a shorter span always fails). -/
def span1 (p : Char → Bool) (s : List Char) : Option (List Char × List Char) :=
  if (spanCh p s).1.isEmpty then none else some (spanCh p s)

/-- Matcher for a literal character sequence, returning the rest. -/
def litMatch : List Char → List Char → Option (List Char)
  | [], s => some s
  | _ :: _, [] => none
  | c :: p, d :: s => if c == d then litMatch p s else none

/-- Matcher for the regex wildcard `.` (any single character). -/
def anyChar : List Char → Option (List Char)
  | [] => none
  | _ :: r => some r

/-- Python `str.startswith(prefix)`. -/
def startsWithL (p s : List Char) : Bool := (litMatch p s).isSome

/-! ### pattern_line: `^([a-zA-Z0-9._-]+)\s+(\d+)\s+IN\s+([A-Z]+)\s+(.+)$` -/

/-- Tail `\s+(.+)$` of `pattern_line`: at least one whitespace character,
then at least one arbitrary character reaching the end of the line.  The
greedy `\s+` takes the maximal whitespace run; when nothing is left after
it, the engine backtracks one character so that `(.+)` captures the final
whitespace character (possible only when the run has length at least 2). -/
def rdataTail (r : List Char) : Option (List Char) :=
  match spanCh isWs r with
  | ([], _) => none
  | (_, c :: cs) => some (c :: cs)
  | (w, []) => if 2 ≤ w.length then (w.getLast?).map (fun c => [c]) else none

/-- Matcher for `pattern_line` (via `re.match`, so anchored at the start;
the `$` is enforced because `rdataTail` captures up to the end).  Returns
the captured groups 1, 3 and 4: qname, rtype, rdata.  Group 2 (the TTL) is
matched but discarded, as in the source. -/
def matchLine (l : List Char) : Option (List Char × List Char × List Char) :=
  match span1 isNameChar l with
  | none => none
  | some (qname, r1) =>
  match span1 isWs r1 with
  | none => none
  | some (_, r2) =>
  match span1 Char.isDigit r2 with
  | none => none
  | some (_, r3) =>
  match span1 isWs r3 with
  | none => none
  | some (_, r4) =>
  match litMatch ['I', 'N'] r4 with
  | none => none
  | some r5 =>
  match span1 isWs r5 with
  | none => none
  | some (_, r6) =>
  match span1 Char.isUpper r6 with
  | none => none
  | some (rtype, r7) =>
  match rdataTail r7 with
  | none => none
  | some rdata => some (qname, rtype, rdata)

/-! ### pattern_ptr: `((25[0-5]|2[0-4][0-9]|1[0-9]{2}|[1-9]?[0-9])\.){3}`
then the octet group again, then `.in-addr.arpa` — in which the three
dots around `in-addr` and `arpa` are unescaped wildcards, and the pattern
carries no `$` anchor, so trailing characters are accepted. -/

/-- Alternative `25[0-5]` of the octet group. -/
def oct25 (a b c : Char) : Bool :=
  a == '2' && b == '5' && decide ('0' ≤ c) && decide (c ≤ '5')

/-- Alternative `2[0-4][0-9]` of the octet group. -/
def oct2x (a b c : Char) : Bool :=
  a == '2' && decide ('0' ≤ b) && decide (b ≤ '4') && c.isDigit

/-- Alternative `1[0-9]{2}` of the octet group. -/
def oct1x (a b c : Char) : Bool :=
  a == '1' && b.isDigit && c.isDigit

/-- Alternative `[1-9][0-9]` (the `?` taken) of the octet group. -/
def octTwo (a b : Char) : Bool :=
  decide ('1' ≤ a) && decide (a ≤ '9') && b.isDigit

/-- Strings accepted by the octet group
`(25[0-5]|2[0-4][0-9]|1[0-9]{2}|[1-9]?[0-9])`. -/
def isOctetStr : List Char → Bool
  | [a] => a.isDigit
  | [a, b] => octTwo a b
  | [a, b, c] => oct25 a b c || oct2x a b c || oct1x a b c
  | _ => false

/-- Three-character candidate matches of the octet group at the head of
`s`, in alternation order: `25[0-5]`, `2[0-4][0-9]`, `1[0-9]{2}`. -/
def octetCands3 : List Char → List (List Char × List Char)
  | a :: b :: c :: r =>
    (if oct25 a b c then [([a, b, c], r)] else []) ++
    (if oct2x a b c then [([a, b, c], r)] else []) ++
    (if oct1x a b c then [([a, b, c], r)] else [])
  | _ => []

/-- Two-character candidate `[1-9][0-9]` at the head of `s`. -/
def octetCands2 : List Char → List (List Char × List Char)
  | a :: b :: r => if octTwo a b then [([a, b], r)] else []
  | _ => []

/-- One-character candidate `[0-9]` at the head of `s`. -/
def octetCands1 : List Char → List (List Char × List Char)
  | a :: r => if a.isDigit then [([a], r)] else []
  | [] => []

/-- Candidate matches of the octet group at the head of `s`, in the order
the Python engine tries them: the three-character alternatives in
alternation order, then `[1-9][0-9]`, then `[0-9]`. -/
def octetCands (s : List Char) : List (List Char × List Char) :=
  octetCands3 s ++ octetCands2 s ++ octetCands1 s

/-- Literal `in-addr` of `pattern_ptr`. -/
def inAddrChars : List Char := ['i', 'n', '-', 'a', 'd', 'd', 'r']

/-- Literal `arpa` of `pattern_ptr`. -/
def arpaChars : List Char := ['a', 'r', 'p', 'a']

/-- Tail `.in-addr.arpa` of `pattern_ptr`: wildcard, literal `in-addr`,
wildcard, literal `arpa`; no end anchor, so anything may follow. -/
def ptrTail (s : List Char) : Bool :=
  match anyChar s with
  | none => false
  | some r1 =>
  match litMatch inAddrChars r1 with
  | none => false
  | some r2 =>
  match anyChar r2 with
  | none => false
  | some r3 => (litMatch arpaChars r3).isSome

/-- Backtracking search over octet candidates: try each candidate in
order, run the continuation on its rest, and prepend the captured octet to
the continuation's groups — the depth-first order of the Python engine. -/
def firstSome (cands : List (List Char × List Char))
    (k : List Char → Option (List (List Char))) : Option (List (List Char)) :=
  match cands with
  | [] => none
  | (o, r) :: rest =>
    match k r with
    | some gs => some (o :: gs)
    | none => firstSome rest k

/-- Continuation for a literal `\.` between two octet groups. -/
def afterDot (k : List Char → Option (List (List Char))) (s : List Char) :
    Option (List (List Char)) :=
  match s with
  | c :: r => if c = '.' then k r else none
  | [] => none

/-- Fourth octet group followed by the `.in-addr.arpa` tail. -/
def ptrLast (s : List Char) : Option (List (List Char)) :=
  firstSome (octetCands s) (fun r => if ptrTail r then some [] else none)

/-- Third octet group, literal dot, then `ptrLast`. -/
def ptrO3 (s : List Char) : Option (List (List Char)) :=
  firstSome (octetCands s) (afterDot ptrLast)

/-- Second octet group, literal dot, then `ptrO3`. -/
def ptrO2 (s : List Char) : Option (List (List Char)) :=
  firstSome (octetCands s) (afterDot ptrO3)

/-- Matcher for `pattern_ptr` via `re.match`: anchored at the start, no end
anchor.  Returns the four captured octet strings on success. -/
def ptrMatch (s : List Char) : Option (List (List Char)) :=
  firstSome (octetCands s) (afterDot ptrO2)

/-! ### pattern_srv: `^(\d+)\s+(\d+)\s+(\d+)\s+([a-zA-Z0-9.-]+)$` -/

/-- Matcher for `pattern_srv`, returning captured group 4 (the target).
All adjacent classes are disjoint from the separating whitespace class and
the final class must reach the end of the string, so the greedy scan is
exactly the Python engine's behaviour. -/
def matchSrv (s : List Char) : Option (List Char) :=
  match span1 Char.isDigit s with
  | none => none
  | some (_, r1) =>
  match span1 isWs r1 with
  | none => none
  | some (_, r2) =>
  match span1 Char.isDigit r2 with
  | none => none
  | some (_, r3) =>
  match span1 isWs r3 with
  | none => none
  | some (_, r4) =>
  match span1 Char.isDigit r4 with
  | none => none
  | some (_, r5) =>
  match span1 isWs r5 with
  | none => none
  | some (_, r6) =>
  match span1 isSrvTargetChar r6 with
  | none => none
  | some (tgt, r7) => if r7.isEmpty then some tgt else none

/-! ### The DNS table (Python dictionaries as ordered association lists) -/

/-- One bucket of the table: a Python `dict` of strings, as an
insertion-ordered association list with unique keys. -/
abbrev Bucket := List (String × String)

/-- Python `k in d`. -/
def bucketHas (b : Bucket) (k : String) : Bool :=
  b.any (fun p => p.1 == k)

/-- Python `d.get(k)` / `d[k]`. -/
def bucketGet (b : Bucket) (k : String) : Option String :=
  (b.find? (fun p => p.1 == k)).map (fun p => p.2)

/-- Python `d[k] = v`: overwrite in place when the key exists (its position
is preserved), append at the end otherwise. -/
def bucketSet (b : Bucket) (k v : String) : Bucket :=
  if b.any (fun p => p.1 == k) then
    b.map (fun p => if p.1 == k then (p.1, v) else p)
  else b ++ [(k, v)]

/-- The DNS table: the dictionary that `update_dns_table` mutates.  Either
bucket is absent (`none`) until the first write that creates it, matching
`DnsTableKeys.IP.name in dns_table` tests in the source. -/
structure DnsTable where
  ip : Option Bucket
  aliasB : Option Bucket
deriving DecidableEq, Repr

/-- Write `dns_table[DnsTableKeys.IP.name][k] = v`, creating the bucket as
a fresh singleton when absent, exactly as both branches of the source do. -/
def writeIp (t : DnsTable) (k v : String) : DnsTable :=
  match t.ip with
  | some b => { t with ip := some (bucketSet b k v) }
  | none => { t with ip := some [(k, v)] }

/-- Write `dns_table[DnsTableKeys.ALIAS.name][k] = v`, creating the bucket
as a fresh singleton when absent. -/
def writeAlias (t : DnsTable) (k v : String) : DnsTable :=
  match t.aliasB with
  | some b => { t with aliasB := some (bucketSet b k v) }
  | none => { t with aliasB := some [(k, v)] }

/-- Lookup in the IP bucket (absent bucket behaves as empty). -/
def ipGet (t : DnsTable) (k : String) : Option String :=
  bucketGet (t.ip.getD []) k

/-- Lookup in the ALIAS bucket (absent bucket behaves as empty). -/
def aliasGet (t : DnsTable) (k : String) : Option String :=
  bucketGet (t.aliasB.getD []) k

/-! ### The parsing loop of update_dns_table -/

/-- Python `qname[:-1] if qname.endswith(".") else qname`. -/
def stripDotL (l : List Char) : List Char :=
  if l.getLast? == some '.' then l.dropLast else l

/-- Test `line.startswith(to_skip)` with
`to_skip = (";", "START", "END", "EOF")`. -/
def metaSkip (l : List Char) : Bool :=
  startsWithL [';'] l || startsWithL ['S', 'T', 'A', 'R', 'T'] l ||
  startsWithL ['E', 'N', 'D'] l || startsWithL ['E', 'O', 'F'] l

/-- The member names of `DnsRtype`, in declaration order. -/
def rtypeNames : List String := ["A", "CNAME", "PTR", "AAAA", "SRV"]

/-- One iteration of the `for line in dns_cache[start_idx+1:end_idx]` loop
of `update_dns_table`: skip metadata lines, match `pattern_line`, strip the
root-zone dots, skip unknown record types, then dispatch on the record
type exactly as the four `if` blocks of the source do (the types are
mutually exclusive strings, so the non-chained `if`s behave as a chain). -/
def processLine (t : DnsTable) (line : String) : DnsTable :=
  let l := line.data
  if metaSkip l then t
  else
    match matchLine l with
    | none => t
    | some (qname0, rtype0, rdata0) =>
      let qname := String.mk (stripDotL qname0)
      let rdata := String.mk (stripDotL rdata0)
      let rtype := String.mk rtype0
      if rtypeNames.contains rtype = false then t
      else if rtype == "A" || rtype == "AAAA" then writeIp t rdata qname
      else if rtype == "CNAME" then writeAlias t rdata qname
      else if rtype == "SRV" then
        match matchSrv (stripDotL rdata0) with
        | none => t
        | some tgt => writeAlias t (String.mk (stripDotL tgt)) qname
      else if rtype == "PTR" then
        match ptrMatch (stripDotL qname0) with
        | some gs =>
          let ip := String.mk (List.intercalate ['.'] gs.reverse)
          if bucketHas (t.ip.getD []) ip then t else writeIp t ip rdata
        | none => writeAlias t qname rdata
      else t

/-- Value of `DnsCacheSection.START_RRSET`. -/
def startMarker : String := "START_RRSET_CACHE"

/-- Value of `DnsCacheSection.END_RRSET`. -/
def endMarker : String := "END_RRSET_CACHE"

/-- The working range `dns_cache[start_idx+1:end_idx]`: when both markers
are found (`list.index`, first occurrence, else `ValueError`), the lines
strictly between them; on a `ValueError` the source sets `start_idx = 0`
and `end_idx = len(dns_cache)`, so the slice becomes `dns_cache[1:]`. -/
def workRange (cache : List String) : List String :=
  match cache.findIdx? (fun l => l == startMarker),
        cache.findIdx? (fun l => l == endMarker) with
  | some s, some e => (cache.take e).drop (s + 1)
  | _, _ => cache.drop 1

/-- The post-processing substitution applied to one IP entry: if the value
is a key of the ALIAS bucket, replace it by the alias' value. -/
def substAlias (ab : Bucket) (p : String × String) : String × String :=
  match bucketGet ab p.2 with
  | some w => (p.1, w)
  | none => p

/-- The post-processing pass of `update_dns_table`: when both buckets are
present, every IP value that is an ALIAS key is replaced by its alias —
value writes on existing keys, so keys and order are untouched. -/
def postProcess (t : DnsTable) : DnsTable :=
  match t.ip, t.aliasB with
  | some ib, some ab => { t with ip := some (ib.map (substAlias ab)) }
  | _, _ => t

/-- The parsing core of `update_dns_table`: fold the per-line step over the
working range of the cache lines, then run the post-processing pass, and
return the (mutated) table. -/
def update_dns_table (t : DnsTable) (cache : List String) : DnsTable :=
  postProcess (List.foldl processLine t (workRange cache))

/-- The table `read_dns_cache` starts from: the fresh `{}` it passes. -/
def emptyTable : DnsTable := { ip := none, aliasB := none }

/-- Embedding of `read_dns_cache`: `update_dns_table({}, host, file)` with
a fresh empty dictionary. -/
def read_dns_cache (cache : List String) : DnsTable :=
  update_dns_table emptyTable cache

/-- CPython evaluates the default value of the `dns_table: dict = {}`
parameter once, at function definition time; every call of
`update_dns_table` that omits the argument receives that same dictionary
object and mutates it in place.  This embeds one such call: given the
current state of the default object it returns the call's result together
with the default object's state after the call (the same mutated
dictionary, which `update_dns_table` also returns). -/
def callOmittingTable (defaultObj : DnsTable) (cache : List String) :
    DnsTable × DnsTable :=
  let r := update_dns_table defaultObj cache
  (r, r)

/-! ### Predicates used by the theorem statements -/

/-- Content-level problems of one line: a metadata-prefixed line, a line
not matching `pattern_line`, an unrecognized record type, or an SRV record
whose rdata does not match `pattern_srv`. -/
def badLine (line : String) : Bool :=
  metaSkip line.data ||
  (match matchLine line.data with
   | none => true
   | some (_, rtype0, rdata0) =>
     !(rtypeNames.contains (String.mk rtype0)) ||
     (String.mk rtype0 == "SRV" && (matchSrv (stripDotL rdata0)).isNone))

/-- Every key of `b1` is a key of `b2`. -/
def bucketKeysIn (b1 b2 : Bucket) : Bool :=
  b1.all (fun p => bucketHas b2 p.1)

/-- Bucket growth: an absent bucket may become anything, a present bucket
must stay present and keep all its keys. -/
def optBucketMono : Option Bucket → Option Bucket → Bool
  | none, _ => true
  | some _, none => false
  | some b1, some b2 => bucketKeysIn b1 b2

/-- Table growth: both buckets grow in the sense of `optBucketMono`. -/
def tableMono (t1 t2 : DnsTable) : Bool :=
  optBucketMono t1.ip t2.ip && optBucketMono t1.aliasB t2.aliasB

/-- Shape accepted by `pattern_ptr` under `re.match`, written as an
explicit decomposition of the string: four octet groups separated by
literal dots, then one arbitrary character, the literal `in-addr`, one
arbitrary character, the literal `arpa`, and an arbitrary remainder (the
dots of `.in-addr.arpa` are unescaped wildcards and the pattern has no end
anchor). -/
def ReversePtrShape (s : List Char) : Prop :=
  ∃ o1 o2 o3 o4 : List Char, ∃ c1 c2 : Char, ∃ rest : List Char,
    isOctetStr o1 = true ∧ isOctetStr o2 = true ∧
    isOctetStr o3 = true ∧ isOctetStr o4 = true ∧
    s = o1 ++ '.' :: (o2 ++ '.' :: (o3 ++ '.' ::
      (o4 ++ c1 :: (inAddrChars ++ c2 :: (arpaChars ++ rest)))))

/-- Shape accepted by `pattern_srv` with captured target `tgt`: three
nonempty digit runs, each followed by a nonempty whitespace run, then the
nonempty target made only of letters, digits, dots and hyphens, reaching
the end of the string. -/
def SrvShape (s tgt : List Char) : Prop :=
  ∃ d1 w1 d2 w2 d3 w3 : List Char,
    d1 ≠ [] ∧ d1.all Char.isDigit = true ∧
    w1 ≠ [] ∧ w1.all isWs = true ∧
    d2 ≠ [] ∧ d2.all Char.isDigit = true ∧
    w2 ≠ [] ∧ w2.all isWs = true ∧
    d3 ≠ [] ∧ d3.all Char.isDigit = true ∧
    w3 ≠ [] ∧ w3.all isWs = true ∧
    tgt ≠ [] ∧ tgt.all isSrvTargetChar = true ∧
    s = d1 ++ w1 ++ d2 ++ w2 ++ d3 ++ w3 ++ tgt

/-! ## Theorems -/

/-! ### Helper lemmas about the post-processing substitution -/

theorem substAlias_fst (ab : Bucket) (p : String × String) :
    (substAlias ab p).1 = p.1 := by
  unfold substAlias
  cases bucketGet ab p.2 <;> rfl

theorem substAlias_snd (ab : Bucket) (p : String × String) :
    (substAlias ab p).2 = (bucketGet ab p.2).getD p.2 := by
  unfold substAlias
  cases bucketGet ab p.2 <;> rfl

theorem bucketGet_cons_pos (a : String × String) (b : Bucket) (k : String)
    (h : (a.1 == k) = true) : bucketGet (a :: b) k = some a.2 := by
  unfold bucketGet
  rw [List.find?_cons]
  simp [h]

theorem bucketGet_cons_neg (a : String × String) (b : Bucket) (k : String)
    (h : (a.1 == k) = false) : bucketGet (a :: b) k = bucketGet b k := by
  unfold bucketGet
  rw [List.find?_cons]
  simp [h]

theorem bucketGet_map_substAlias (ab ib : Bucket) (k : String) :
    bucketGet (ib.map (substAlias ab)) k =
      (bucketGet ib k).map (fun v => (bucketGet ab v).getD v) := by
  induction ib with
  | nil => rfl
  | cons a ib ih =>
    rw [List.map_cons]
    cases h : (a.1 == k) with
    | true =>
      rw [bucketGet_cons_pos _ _ _ (by rw [substAlias_fst]; exact h),
          bucketGet_cons_pos _ _ _ h, substAlias_snd]
      rfl
    | false =>
      rw [bucketGet_cons_neg _ _ _ (by rw [substAlias_fst]; exact h),
          bucketGet_cons_neg _ _ _ h]
      exact ih

/-! ### C6: post-processing runs once per call and is single-hop -/

/-- C6.  Post-processing runs exactly once per call, after all lines of the
working range are folded in: `update_dns_table` is exactly the line fold
followed by one `postProcess`.  And the pass is pointwise single-hop: after
it, the value at any IP key `k` is `ALIAS[v]` when the previous value `v`
is an ALIAS key, and still `v` otherwise — the new value is never resolved
further within the call. -/
theorem c6_post_processing_single_hop :
    (∀ (t : DnsTable) (cache : List String),
        update_dns_table t cache =
          postProcess (List.foldl processLine t (workRange cache))) ∧
    (∀ (t : DnsTable) (k : String),
        ipGet (postProcess t) k =
          (ipGet t k).map (fun v => (aliasGet t v).getD v)) := by
  constructor
  · intro t cache
    rfl
  · intro t k
    obtain ⟨ipb, alb⟩ := t
    cases ipb with
    | none =>
      cases alb <;> simp [postProcess, ipGet, bucketGet]
    | some ib =>
      cases alb with
      | none =>
        simp only [postProcess, ipGet, aliasGet, Option.getD]
        cases h : bucketGet ib k <;> simp [bucketGet]
      | some ab =>
        simp only [postProcess, ipGet, aliasGet, Option.getD]
        exact bucketGet_map_substAlias ab ib k

/-! ### C10: the post-processing pass only rewrites IP values -/

/-- C10.  Frame of the post-processing pass: the ALIAS bucket is unchanged
(identically, keys and values), the IP bucket stays present or absent as it
was, and the IP bucket's key sequence is unchanged. -/
theorem c10_post_processing_frame (t : DnsTable) :
    (postProcess t).aliasB = t.aliasB ∧
    (postProcess t).ip.isSome = t.ip.isSome ∧
    ((postProcess t).ip.getD []).map Prod.fst =
      (t.ip.getD []).map Prod.fst := by
  obtain ⟨ipb, alb⟩ := t
  cases ipb with
  | none => cases alb <;> simp [postProcess]
  | some ib =>
    cases alb with
    | none => simp [postProcess]
    | some ab =>
      refine ⟨rfl, rfl, ?_⟩
      simp only [postProcess, Option.getD, List.map_map]
      exact List.map_congr_left (fun p _ => substAlias_fst ab p)

/-! ### C5: incremental merge -/

/-- C5 (amended).  The per-line folding phase is append-compatible: folding
`l1` and then `l2` into a table equals folding `l1 ++ l2` in one pass.  The
full `update_dns_table` does not satisfy the corresponding merge equation
(see the counterexample), because the post-processing alias substitution
runs once per call and the missing-marker fallback drops the first line of
each call's input separately. -/
theorem c5_fold_append (t : DnsTable) (l1 l2 : List String) :
    List.foldl processLine (List.foldl processLine t l1) l2 =
      List.foldl processLine t (l1 ++ l2) := by
  rw [List.foldl_append]

/-- C5 counterexample.  Two marker-less snapshots with disjoint contributed
key sets: `L1` contributes `IP["10.0.0.1"]` and `ALIAS["a.local"]`, `L2`
contributes `ALIAS["b.local"]`.  Updating twice resolves the alias chain
one hop per call and ends with `IP["10.0.0.1"] = "c.local"`, while one
update over the concatenation ends with `IP["10.0.0.1"] = "b.local"`: the
two results differ. -/
theorem c5_counterexample :
    update_dns_table
        (update_dns_table emptyTable
          ["x", "a.local 5 IN A 10.0.0.1", "b.local 5 IN CNAME a.local"])
        ["y", "c.local 5 IN CNAME b.local"] =
      { ip := some [("10.0.0.1", "c.local")],
        aliasB := some [("a.local", "b.local"), ("b.local", "c.local")] } ∧
    update_dns_table emptyTable
        (["x", "a.local 5 IN A 10.0.0.1", "b.local 5 IN CNAME a.local"] ++
          ["y", "c.local 5 IN CNAME b.local"]) =
      { ip := some [("10.0.0.1", "b.local")],
        aliasB := some [("a.local", "b.local"), ("b.local", "c.local")] } ∧
    update_dns_table
        (update_dns_table emptyTable
          ["x", "a.local 5 IN A 10.0.0.1", "b.local 5 IN CNAME a.local"])
        ["y", "c.local 5 IN CNAME b.local"] ≠
      update_dns_table emptyTable
        (["x", "a.local 5 IN A 10.0.0.1", "b.local 5 IN CNAME a.local"] ++
          ["y", "c.local 5 IN CNAME b.local"]) :=
  ⟨by decide, by decide, by decide⟩

/-! ### C2: the shared mutable default table -/

/-- C2.  The code violates two-run independence: with the mutable default
`dns_table: dict = {}`, a call that omits the table argument mutates the
shared default object, so a second default-argument call returns a table
containing the first call's entries.  At the concrete input below, the
second call's result differs depending on whether the first call happened:
the claimed independence is false on the code. -/
theorem c2_shared_default_counterexample :
    (callOmittingTable
        (callOmittingTable emptyTable ["m", "a.com 1 IN A 1.2.3.4"]).2
        ["m"]).1 ≠
      (callOmittingTable emptyTable ["m"]).1 := by
  decide

/-! ### C1: missing section markers -/

/-- C1 (amended).  When either section marker is missing from the input,
the working range is the entire input MINUS ITS FIRST LINE: the fallback
sets `start_idx = 0` and the loop slices `dns_cache[start_idx+1:end_idx]`,
so a record on the very first line is not parsed; every well-formed record
line from the second line on is processed, and no error is raised (the
fold is total). -/
theorem c1_missing_marker_fallback (t : DnsTable) (cache : List String)
    (h : cache.findIdx? (fun l => l == startMarker) = none ∨
         cache.findIdx? (fun l => l == endMarker) = none) :
    workRange cache = cache.drop 1 ∧
    update_dns_table t cache =
      postProcess (List.foldl processLine t (cache.drop 1)) := by
  have hw : workRange cache = cache.drop 1 := by
    rcases h with h | h
    · cases hx : cache.findIdx? (fun l => l == endMarker) <;>
        simp [workRange, h, hx]
    · cases hx : cache.findIdx? (fun l => l == startMarker) <;>
        simp [workRange, h, hx]
  refine ⟨hw, ?_⟩
  rw [update_dns_table, hw]

/-- C1 witness: a concrete marker-less cache to which the fallback theorem
applies. -/
theorem c1_missing_marker_fallback_witness :
    (["x.com 1 IN A 9.9.9.9", "y.com 1 IN A 8.8.8.8"].findIdx?
        (fun l => l == startMarker) = none ∨
     ["x.com 1 IN A 9.9.9.9", "y.com 1 IN A 8.8.8.8"].findIdx?
        (fun l => l == endMarker) = none) ∧
    (workRange ["x.com 1 IN A 9.9.9.9", "y.com 1 IN A 8.8.8.8"] =
        ["x.com 1 IN A 9.9.9.9", "y.com 1 IN A 8.8.8.8"].drop 1 ∧
     update_dns_table emptyTable ["x.com 1 IN A 9.9.9.9", "y.com 1 IN A 8.8.8.8"] =
        postProcess (List.foldl processLine emptyTable
          (["x.com 1 IN A 9.9.9.9", "y.com 1 IN A 8.8.8.8"].drop 1))) :=
  ⟨Or.inl (by decide),
   c1_missing_marker_fallback emptyTable
     ["x.com 1 IN A 9.9.9.9", "y.com 1 IN A 8.8.8.8"] (Or.inl (by decide))⟩

/-- C1 counterexample.  A marker-less dump whose only (well-formed) record
line is the very first line of the input yields an empty table — the first
line is skipped by the fallback slice `dns_cache[1:]`, contradicting the
claim that a record on the very first line is parsed and contributes.  The
same record on the second line does contribute. -/
theorem c1_counterexample :
    update_dns_table emptyTable ["first.com 300 IN A 1.2.3.4"] = emptyTable ∧
    update_dns_table emptyTable ["m", "first.com 300 IN A 1.2.3.4"] =
      { ip := some [("1.2.3.4", "first.com")], aliasB := none } :=
  ⟨by decide, by decide⟩

/-! ### C9: the table only grows -/

theorem bucketKeysIn_refl (b : Bucket) : bucketKeysIn b b = true := by
  rw [bucketKeysIn, List.all_eq_true]
  intro p hp
  rw [bucketHas, List.any_eq_true]
  exact ⟨p, hp, by simp⟩

theorem optBucketMono_refl (ob : Option Bucket) : optBucketMono ob ob = true := by
  cases ob with
  | none => rfl
  | some b => exact bucketKeysIn_refl b

theorem tableMono_refl (t : DnsTable) : tableMono t t = true := by
  rw [tableMono, Bool.and_eq_true]
  exact ⟨optBucketMono_refl t.ip, optBucketMono_refl t.aliasB⟩

theorem bucketKeysIn_trans (b1 b2 b3 : Bucket)
    (h12 : bucketKeysIn b1 b2 = true) (h23 : bucketKeysIn b2 b3 = true) :
    bucketKeysIn b1 b3 = true := by
  rw [bucketKeysIn, List.all_eq_true] at h12 h23 ⊢
  intro p hp
  have h2 := h12 p hp
  rw [bucketHas, List.any_eq_true] at h2
  obtain ⟨q, hq, hbeq⟩ := h2
  have h3 := h23 q hq
  rw [eq_of_beq hbeq] at h3
  exact h3

theorem optBucketMono_trans (ob1 ob2 ob3 : Option Bucket)
    (h12 : optBucketMono ob1 ob2 = true) (h23 : optBucketMono ob2 ob3 = true) :
    optBucketMono ob1 ob3 = true := by
  cases ob1 with
  | none => rfl
  | some b1 =>
    cases ob2 with
    | none => exact absurd h12 (by simp [optBucketMono])
    | some b2 =>
      cases ob3 with
      | none => exact absurd h23 (by simp [optBucketMono])
      | some b3 => exact bucketKeysIn_trans b1 b2 b3 h12 h23

theorem tableMono_trans (t1 t2 t3 : DnsTable)
    (h12 : tableMono t1 t2 = true) (h23 : tableMono t2 t3 = true) :
    tableMono t1 t3 = true := by
  rw [tableMono, Bool.and_eq_true] at h12 h23 ⊢
  exact ⟨optBucketMono_trans _ _ _ h12.1 h23.1,
         optBucketMono_trans _ _ _ h12.2 h23.2⟩

theorem bucketHas_map_fst (b : Bucket) (f : String × String → String × String)
    (hf : ∀ p, (f p).1 = p.1) (k : String) :
    bucketHas (b.map f) k = bucketHas b k := by
  induction b with
  | nil => rfl
  | cons a b ih =>
    simp only [bucketHas, List.map_cons, List.any_cons] at ih ⊢
    rw [hf a, ih]

theorem bucketHas_bucketSet (b : Bucket) (k v k2 : String)
    (h : bucketHas b k2 = true) : bucketHas (bucketSet b k v) k2 = true := by
  rw [bucketSet]
  split
  · rw [bucketHas_map_fst]
    · exact h
    · intro p
      by_cases hp : (p.1 == k) = true <;> simp [hp]
  · rw [bucketHas, List.any_eq_true] at h ⊢
    obtain ⟨q, hq, hbeq⟩ := h
    exact ⟨q, List.mem_append_left _ hq, hbeq⟩

theorem bucketKeysIn_bucketSet (b : Bucket) (k v : String) :
    bucketKeysIn b (bucketSet b k v) = true := by
  rw [bucketKeysIn, List.all_eq_true]
  intro p hp
  apply bucketHas_bucketSet
  rw [bucketHas, List.any_eq_true]
  exact ⟨p, hp, by simp⟩

theorem tableMono_writeIp (t : DnsTable) (k v : String) :
    tableMono t (writeIp t k v) = true := by
  rw [writeIp]
  cases hip : t.ip with
  | none =>
    rw [tableMono, Bool.and_eq_true]
    exact ⟨by rw [hip]; rfl, optBucketMono_refl _⟩
  | some b =>
    rw [tableMono, Bool.and_eq_true]
    refine ⟨?_, optBucketMono_refl _⟩
    rw [hip]
    exact bucketKeysIn_bucketSet b k v

theorem tableMono_writeAlias (t : DnsTable) (k v : String) :
    tableMono t (writeAlias t k v) = true := by
  rw [writeAlias]
  cases hal : t.aliasB with
  | none =>
    rw [tableMono, Bool.and_eq_true]
    exact ⟨optBucketMono_refl _, by rw [hal]; rfl⟩
  | some b =>
    rw [tableMono, Bool.and_eq_true]
    refine ⟨optBucketMono_refl _, ?_⟩
    rw [hal]
    exact bucketKeysIn_bucketSet b k v

theorem tableMono_processLine (t : DnsTable) (line : String) :
    tableMono t (processLine t line) = true := by
  unfold processLine
  dsimp only
  repeat' split
  all_goals
    first
      | exact tableMono_refl t
      | apply tableMono_writeIp
      | apply tableMono_writeAlias

theorem tableMono_foldl (lines : List String) (t : DnsTable) :
    tableMono t (List.foldl processLine t lines) = true := by
  induction lines generalizing t with
  | nil => exact tableMono_refl t
  | cons l ls ih =>
    rw [List.foldl_cons]
    exact tableMono_trans _ _ _ (tableMono_processLine t l) (ih _)

theorem tableMono_postProcess (t : DnsTable) :
    tableMono t (postProcess t) = true := by
  obtain ⟨ipb, alb⟩ := t
  cases ipb with
  | none => cases alb <;> exact tableMono_refl _
  | some ib =>
    cases alb with
    | none => exact tableMono_refl _
    | some ab =>
      rw [tableMono, Bool.and_eq_true]
      constructor
      · show bucketKeysIn ib (ib.map (substAlias ab)) = true
        rw [bucketKeysIn, List.all_eq_true]
        intro p hp
        rw [bucketHas_map_fst _ _ (substAlias_fst ab)]
        rw [bucketHas, List.any_eq_true]
        exact ⟨p, hp, by simp⟩
      · exact optBucketMono_refl _

/-- C9.  The table only grows: for every input table and line sequence, a
bucket present in the input is present in the result and every key present
in an input bucket is still a key of the corresponding result bucket (its
value may have been overwritten, but no entry is ever removed).  The Python
function mutates the caller's dictionary in place and returns it; in the
embedding this in-place contract appears as the result being a pure
function of the passed table, with the growth property proved here. -/
theorem c9_table_growth (t : DnsTable) (cache : List String) :
    tableMono t (update_dns_table t cache) = true := by
  rw [update_dns_table]
  exact tableMono_trans _ _ _ (tableMono_foldl _ t) (tableMono_postProcess _)

/-! ### C8: content-level problems are skipped locally -/

theorem processLine_id_of_badLine (line : String) (h : badLine line = true) :
    ∀ t : DnsTable, processLine t line = t := by
  intro t
  unfold processLine
  dsimp only
  cases hms : metaSkip line.data with
  | true => simp [hms]
  | false =>
    rw [badLine, Bool.or_eq_true] at h
    rcases h with h | h
    · rw [hms] at h
      simp at h
    · cases hm : matchLine line.data with
      | none => simp [hms, hm]
      | some trip =>
        obtain ⟨q0, r0, d0⟩ := trip
        rw [hm] at h
        dsimp only at h
        rw [Bool.or_eq_true] at h
        rcases h with h | h
        · rw [Bool.not_eq_true'] at h
          have hmem : ¬ (String.mk r0 ∈ rtypeNames) := by simpa using h
          simp [hms, hm, hmem]
        · rw [Bool.and_eq_true] at h
          obtain ⟨hsrv, hnone⟩ := h
          have hr : String.mk r0 = "SRV" := eq_of_beq hsrv
          rw [Option.isNone_iff_eq_none] at hnone
          simp [hms, hm, hr, hnone, rtypeNames]

/-- C8.  Content-level problems never abort the parse: a line that starts
with a metadata prefix, does not match `pattern_line`, carries an
unrecognized record type, or is an SRV record with a malformed target
(`badLine`) leaves any table unchanged, and removing such a line from any
position of a line sequence does not change the fold's result — parsing of
the surrounding lines continues.  The fold is a total function, so no
error is ever raised. -/
theorem c8_content_errors_skipped (t : DnsTable) (line : String)
    (pre post : List String) (h : badLine line = true) :
    processLine t line = t ∧
    List.foldl processLine t (pre ++ line :: post) =
      List.foldl processLine t (pre ++ post) := by
  refine ⟨processLine_id_of_badLine line h t, ?_⟩
  rw [List.foldl_append, List.foldl_append, List.foldl_cons,
      processLine_id_of_badLine line h]

/-- C8 witness: an MX record line amid two A records is skipped and the
fold behaves as if the sequence did not contain it. -/
theorem c8_content_errors_skipped_witness :
    badLine "example.com 5 IN MX mail.example.com" = true ∧
    (processLine emptyTable "example.com 5 IN MX mail.example.com" =
        emptyTable ∧
     List.foldl processLine emptyTable
         (["a.com 1 IN A 1.2.3.4"] ++
           "example.com 5 IN MX mail.example.com" :: ["b.com 1 IN A 2.3.4.5"]) =
       List.foldl processLine emptyTable
         (["a.com 1 IN A 1.2.3.4"] ++ ["b.com 1 IN A 2.3.4.5"])) :=
  ⟨by decide,
   c8_content_errors_skipped emptyTable "example.com 5 IN MX mail.example.com"
     ["a.com 1 IN A 1.2.3.4"] ["b.com 1 IN A 2.3.4.5"] (by decide)⟩


/-! ### C4: PTR reverse-lookup writes are first-write-wins -/

theorem beq_symm_false (a b : String) (h : (a == b) = false) :
    (b == a) = false := by
  cases hba : (b == a) with
  | false => rfl
  | true =>
    rw [eq_of_beq hba] at h
    simp at h

theorem bucketGet_overwrite (b : Bucket) (k v : String)
    (hany : b.any (fun p => p.1 == k) = true) :
    bucketGet (b.map (fun p => if p.1 == k then (p.1, v) else p)) k = some v := by
  induction b with
  | nil => simp at hany
  | cons a b ih =>
    rw [List.map_cons]
    cases ha : (a.1 == k) with
    | true => exact bucketGet_cons_pos (a.1, v) _ k ha
    | false =>
      show bucketGet
          (a :: b.map (fun p => if p.1 == k then (p.1, v) else p)) k = some v
      rw [bucketGet_cons_neg a _ k ha]
      apply ih
      rw [List.any_cons, Bool.or_eq_true] at hany
      rcases hany with hx | hx
      · rw [ha] at hx
        simp at hx
      · exact hx

theorem bucketGet_append_new (b : Bucket) (k v : String)
    (hnone : b.any (fun p => p.1 == k) = false) :
    bucketGet (b ++ [(k, v)]) k = some v := by
  induction b with
  | nil => exact bucketGet_cons_pos (k, v) [] k (by simp)
  | cons a b ih =>
    rw [List.any_cons, Bool.or_eq_false_iff] at hnone
    rw [List.cons_append, bucketGet_cons_neg a _ k hnone.1]
    exact ih hnone.2

theorem bucketGet_bucketSet_self (b : Bucket) (k v : String) :
    bucketGet (bucketSet b k v) k = some v := by
  rw [bucketSet]
  cases hany : b.any (fun p => p.1 == k) with
  | true =>
    show bucketGet (b.map (fun p => if p.1 == k then (p.1, v) else p)) k = some v
    exact bucketGet_overwrite b k v hany
  | false =>
    show bucketGet (b ++ [(k, v)]) k = some v
    exact bucketGet_append_new b k v hany

theorem bucketGet_overwrite_other (b : Bucket) (k v k2 : String)
    (hk : (k2 == k) = false) :
    bucketGet (b.map (fun p => if p.1 == k then (p.1, v) else p)) k2 =
      bucketGet b k2 := by
  induction b with
  | nil => rfl
  | cons a b ih =>
    rw [List.map_cons]
    have hfst : (if (a.1 == k) = true then (a.1, v) else a).1 = a.1 := by
      cases (a.1 == k) <;> simp
    cases ha2 : (a.1 == k2) with
    | true =>
      have hak : (a.1 == k) = false := by
        cases hak : (a.1 == k) with
        | false => rfl
        | true =>
          rw [eq_of_beq hak] at ha2
          rw [eq_of_beq ha2] at hk
          simp at hk
      have he : (if (a.1 == k) = true then (a.1, v) else a) = a := by
        simp [hak]
      rw [he, bucketGet_cons_pos a _ k2 ha2, bucketGet_cons_pos a _ k2 ha2]
    | false =>
      rw [bucketGet_cons_neg _ _ k2 (by rw [hfst]; exact ha2),
          bucketGet_cons_neg a _ k2 ha2]
      exact ih

theorem bucketGet_append_other (b : Bucket) (k v k2 : String)
    (hk : (k2 == k) = false) :
    bucketGet (b ++ [(k, v)]) k2 = bucketGet b k2 := by
  induction b with
  | nil =>
    show bucketGet [(k, v)] k2 = bucketGet [] k2
    rw [bucketGet_cons_neg (k, v) [] k2 (beq_symm_false k2 k hk)]
  | cons a b ih =>
    rw [List.cons_append]
    cases ha2 : (a.1 == k2) with
    | true =>
      rw [bucketGet_cons_pos a _ k2 ha2, bucketGet_cons_pos a _ k2 ha2]
    | false =>
      rw [bucketGet_cons_neg a _ k2 ha2, bucketGet_cons_neg a _ k2 ha2]
      exact ih

theorem bucketGet_bucketSet_other (b : Bucket) (k v k2 : String)
    (hk : (k2 == k) = false) :
    bucketGet (bucketSet b k v) k2 = bucketGet b k2 := by
  rw [bucketSet]
  cases hany : b.any (fun p => p.1 == k) with
  | true =>
    show bucketGet
        (b.map (fun p => if p.1 == k then (p.1, v) else p)) k2 = bucketGet b k2
    exact bucketGet_overwrite_other b k v k2 hk
  | false =>
    show bucketGet (b ++ [(k, v)]) k2 = bucketGet b k2
    exact bucketGet_append_other b k v k2 hk

theorem writeIp_aliasB (t : DnsTable) (k v : String) :
    (writeIp t k v).aliasB = t.aliasB := by
  obtain ⟨ipb, alb⟩ := t
  cases ipb <;> rfl

theorem ipGet_writeIp_self (t : DnsTable) (k v : String) :
    ipGet (writeIp t k v) k = some v := by
  obtain ⟨ipb, alb⟩ := t
  cases ipb with
  | none => exact bucketGet_cons_pos (k, v) [] k (by simp)
  | some b => exact bucketGet_bucketSet_self b k v

theorem ipGet_writeIp_other (t : DnsTable) (k v k2 : String)
    (hk : (k2 == k) = false) :
    ipGet (writeIp t k v) k2 = ipGet t k2 := by
  obtain ⟨ipb, alb⟩ := t
  cases ipb with
  | none =>
    show bucketGet [(k, v)] k2 = bucketGet [] k2
    rw [bucketGet_cons_neg (k, v) [] k2 (beq_symm_false k2 k hk)]
  | some b => exact bucketGet_bucketSet_other b k v k2 hk

/-- C4.  A PTR record line whose (dot-stripped) qname matches the
reverse-lookup pattern writes `IP[ip] = rdata` — where `ip` is the four
captured octets reversed and joined with dots — only when that key is
absent: when the key is already present (from an earlier A/AAAA record or
an earlier PTR), the line leaves the table completely unchanged; when it is
absent, the new key gets value rdata, the ALIAS bucket is untouched and
every other IP key keeps its value. -/
theorem c4_ptr_first_write_wins (t : DnsTable) (line : String)
    (qname0 rtype0 rdata0 : List Char) (gs : List (List Char)) (ip : String)
    (hm : metaSkip line.data = false)
    (hl : matchLine line.data = some (qname0, rtype0, rdata0))
    (ht : String.mk rtype0 = "PTR")
    (hp : ptrMatch (stripDotL qname0) = some gs)
    (hip : ip = String.mk (List.intercalate ['.'] gs.reverse)) :
    (bucketHas (t.ip.getD []) ip = true → processLine t line = t) ∧
    (bucketHas (t.ip.getD []) ip = false →
       ipGet (processLine t line) ip = some (String.mk (stripDotL rdata0)) ∧
       (processLine t line).aliasB = t.aliasB ∧
       ∀ k : String, (k == ip) = false →
         ipGet (processLine t line) k = ipGet t k) := by
  constructor
  · intro hhas
    unfold processLine
    dsimp only
    simp [hm, hl, ht, hp, ← hip, rtypeNames, hhas]
  · intro hhas
    have hr2 : processLine t line = writeIp t ip (String.mk (stripDotL rdata0)) := by
      unfold processLine
      dsimp only
      simp [hm, hl, ht, hp, ← hip, rtypeNames, hhas]
    refine ⟨?_, ?_, ?_⟩
    · rw [hr2]
      exact ipGet_writeIp_self t ip _
    · rw [hr2]
      exact writeIp_aliasB t ip _
    · intro k hk
      rw [hr2]
      exact ipGet_writeIp_other t ip _ k hk

/-- C4 witness: the spec's concrete example.  The PTR line with qname
`34.216.184.93.in-addr.arpa.` and rdata `example.com.` applied to the empty
table (so the key is absent) yields `IP["93.184.216.34"] = "example.com"`. -/
theorem c4_ptr_first_write_wins_witness :
    (metaSkip "34.216.184.93.in-addr.arpa. 120 IN PTR example.com.".data = false ∧
     matchLine "34.216.184.93.in-addr.arpa. 120 IN PTR example.com.".data =
       some ("34.216.184.93.in-addr.arpa.".data, "PTR".data, "example.com.".data) ∧
     ptrMatch (stripDotL "34.216.184.93.in-addr.arpa.".data) =
       some ["34".data, "216".data, "184".data, "93".data] ∧
     bucketHas (emptyTable.ip.getD []) "93.184.216.34" = false) ∧
    ipGet (processLine emptyTable "34.216.184.93.in-addr.arpa. 120 IN PTR example.com.")
        "93.184.216.34" = some "example.com" :=
  ⟨⟨by decide, by decide, by decide, by decide⟩,
   ((c4_ptr_first_write_wins emptyTable
       "34.216.184.93.in-addr.arpa. 120 IN PTR example.com."
       "34.216.184.93.in-addr.arpa.".data "PTR".data "example.com.".data
       ["34".data, "216".data, "184".data, "93".data] "93.184.216.34"
       (by decide) (by decide) (by decide) (by decide) (by decide)).2
     (by decide)).1⟩

/-! ### C3 and C7 counterexamples -/

/-- C3 counterexample.  The qname `1.2.3.4xin-addrxarpax` does not have the
shape "four octets + literal `.in-addr.arpa` + nothing else" (the dots are
`x`, and a trailing `x` follows), yet `pattern_ptr` matches it — the dots
around `in-addr`/`arpa` are unescaped wildcards and the pattern has no end
anchor — so a PTR line with this qname takes the reverse-lookup branch and
writes `IP["4.3.2.1"]`, not the generic-alias branch the claim requires. -/
theorem c3_counterexample :
    (ptrMatch "1.2.3.4xin-addrxarpax".data).isSome = true ∧
    update_dns_table emptyTable
        ["START_RRSET_CACHE",
         "1.2.3.4xin-addrxarpax 5 IN PTR host.example",
         "END_RRSET_CACHE"] =
      { ip := some [("4.3.2.1", "host.example")], aliasB := none } :=
  ⟨by decide, by decide⟩

/-- C7 counterexample.  The SRV rdata `0 0 443 ser_ver.example.com` has
four whitespace-separated fields with the first three numeric and a
non-numeric target, yet the line is skipped, because the target contains
`_`, which is outside `pattern_srv`'s target class `[a-zA-Z0-9.-]`: the
table stays empty where the claim requires
`ALIAS["ser_ver.example.com"] = "x.local"`. -/
theorem c7_counterexample :
    matchSrv "0 0 443 ser_ver.example.com".data = none ∧
    update_dns_table emptyTable
        ["m", "x.local 5 IN SRV 0 0 443 ser_ver.example.com"] = emptyTable :=
  ⟨by decide, by decide⟩

/-! ### Span lemmas for the character-class matchers -/

theorem spanCh_append (p : Char → Bool) (a r : List Char)
    (ha : ∀ c ∈ a, p c = true)
    (hr : ∀ c, r.head? = some c → p c = false) :
    spanCh p (a ++ r) = (a, r) := by
  induction a with
  | nil =>
    cases r with
    | nil => rfl
    | cons c cs =>
      have hc := hr c rfl
      simp [spanCh, hc]
  | cons c a ih =>
    have hc : p c = true := ha c (List.mem_cons_self c a)
    have ih2 := ih (fun d hd => ha d (List.mem_cons_of_mem c hd))
    rw [List.cons_append]
    simp [spanCh, hc, ih2]

theorem spanCh_eq_append (p : Char → Bool) (s : List Char) :
    (spanCh p s).1 ++ (spanCh p s).2 = s := by
  induction s with
  | nil => rfl
  | cons c cs ih =>
    by_cases hc : p c = true <;> simp [spanCh, hc, ih]

theorem spanCh_all (p : Char → Bool) (s : List Char) :
    ∀ c ∈ (spanCh p s).1, p c = true := by
  induction s with
  | nil =>
    intro c hc
    simp [spanCh] at hc
  | cons d cs ih =>
    by_cases hd : p d = true
    · intro c hc
      simp only [spanCh, hd, if_true] at hc
      rcases List.mem_cons.mp hc with rfl | hc
      · exact hd
      · exact ih c hc
    · intro c hc
      simp [spanCh, hd] at hc

theorem spanCh_head_not (p : Char → Bool) (s : List Char) :
    ∀ c, (spanCh p s).2.head? = some c → p c = false := by
  induction s with
  | nil =>
    intro c hc
    simp [spanCh] at hc
  | cons d cs ih =>
    by_cases hd : p d = true
    · intro c hc
      simp only [spanCh, hd, if_true] at hc
      exact ih c hc
    · intro c hc
      have hpd : p d = false := by simpa using hd
      simp [spanCh, hpd] at hc
      subst hc
      exact hpd

theorem span1_eq_some_iff (p : Char → Bool) (s a r : List Char) :
    span1 p s = some (a, r) ↔ (spanCh p s = (a, r) ∧ a ≠ []) := by
  constructor
  · intro h
    rw [span1] at h
    split at h
    · exact absurd h (by simp)
    · rename_i he
      have hs := Option.some.inj h
      refine ⟨hs, ?_⟩
      intro ha
      apply he
      rw [hs, ha]
      rfl
  · rintro ⟨hsp, hne⟩
    rw [span1, hsp]
    cases a with
    | nil => exact absurd rfl hne
    | cons c cs => rfl

theorem span1_decomp (p : Char → Bool) (a r : List Char)
    (ha : a ≠ []) (hall : ∀ c ∈ a, p c = true)
    (hr : ∀ c, r.head? = some c → p c = false) :
    span1 p (a ++ r) = some (a, r) := by
  rw [span1_eq_some_iff]
  exact ⟨spanCh_append p a r hall hr, ha⟩

theorem span1_inv (p : Char → Bool) (s a r : List Char)
    (h : span1 p s = some (a, r)) :
    s = a ++ r ∧ a ≠ [] ∧ (∀ c ∈ a, p c = true) ∧
      (∀ c, r.head? = some c → p c = false) := by
  rw [span1_eq_some_iff] at h
  obtain ⟨hsp, hne⟩ := h
  refine ⟨?_, hne, ?_, ?_⟩
  · have hx := spanCh_eq_append p s
    rw [hsp] at hx
    exact hx.symm
  · intro c hc
    exact spanCh_all p s c (by rw [hsp]; exact hc)
  · intro c hc
    exact spanCh_head_not p s c (by rw [hsp]; exact hc)

/-! ### Character-class facts -/

theorem ws_cases (c : Char) (h : isWs c = true) :
    c = ' ' ∨ c = '\t' ∨ c = '\n' ∨ c = '\r' ∨ c = '\x0b' ∨ c = '\x0c' := by
  simp [isWs] at h
  tauto

theorem ws_not_digit (c : Char) (h : isWs c = true) : c.isDigit = false := by
  rcases ws_cases c h with rfl | rfl | rfl | rfl | rfl | rfl <;> decide

theorem ws_not_target (c : Char) (h : isWs c = true) :
    isSrvTargetChar c = false := by
  rcases ws_cases c h with rfl | rfl | rfl | rfl | rfl | rfl <;> decide

theorem digit_not_ws (c : Char) (h : c.isDigit = true) : isWs c = false := by
  cases hw : isWs c with
  | false => rfl
  | true =>
    rw [ws_not_digit c hw] at h
    simp at h

theorem target_not_ws (c : Char) (h : isSrvTargetChar c = true) :
    isWs c = false := by
  cases hw : isWs c with
  | false => rfl
  | true =>
    rw [ws_not_target c hw] at h
    simp at h

theorem head_all_not (q g : Char → Bool) (w : List Char)
    (hall : ∀ c ∈ w, q c = true) (hng : ∀ c, q c = true → g c = false) :
    ∀ c, w.head? = some c → g c = false := by
  cases w with
  | nil =>
    intro c hc
    simp at hc
  | cons wc w2 =>
    intro c hc
    rw [List.head?_cons] at hc
    obtain rfl := Option.some.inj hc
    exact hng wc (hall wc (List.mem_cons_self wc w2))

theorem head_of_append_all (q g : Char → Bool) (w x : List Char) (hw : w ≠ [])
    (hall : ∀ c ∈ w, q c = true)
    (hng : ∀ c, q c = true → g c = false) :
    ∀ c, ((w ++ x).head? = some c) → g c = false := by
  cases w with
  | nil => exact absurd rfl hw
  | cons wc w2 =>
    intro c hc
    rw [List.cons_append, List.head?_cons] at hc
    obtain rfl := Option.some.inj hc
    exact hng wc (hall wc (List.mem_cons_self wc w2))

/-! ### Characterization of the pattern_srv matcher -/

theorem matchSrv_eq_some_iff (s tgt : List Char) :
    matchSrv s = some tgt ↔ SrvShape s tgt := by
  constructor
  · intro h
    unfold matchSrv at h
    cases h1 : span1 Char.isDigit s with
    | none => simp [h1] at h
    | some pr1 =>
    obtain ⟨d1, r1⟩ := pr1
    simp only [h1] at h
    cases h2 : span1 isWs r1 with
    | none => simp [h2] at h
    | some pr2 =>
    obtain ⟨w1, r2⟩ := pr2
    simp only [h2] at h
    cases h3 : span1 Char.isDigit r2 with
    | none => simp [h3] at h
    | some pr3 =>
    obtain ⟨d2, r3⟩ := pr3
    simp only [h3] at h
    cases h4 : span1 isWs r3 with
    | none => simp [h4] at h
    | some pr4 =>
    obtain ⟨w2, r4⟩ := pr4
    simp only [h4] at h
    cases h5 : span1 Char.isDigit r4 with
    | none => simp [h5] at h
    | some pr5 =>
    obtain ⟨d3, r5⟩ := pr5
    simp only [h5] at h
    cases h6 : span1 isWs r5 with
    | none => simp [h6] at h
    | some pr6 =>
    obtain ⟨w3, r6⟩ := pr6
    simp only [h6] at h
    cases h7 : span1 isSrvTargetChar r6 with
    | none => simp [h7] at h
    | some pr7 =>
    obtain ⟨t0, r7⟩ := pr7
    simp only [h7] at h
    cases hr7 : r7.isEmpty with
    | false =>
      rw [hr7] at h
      simp at h
    | true =>
      rw [hr7] at h
      simp only [if_true] at h
      have htg : t0 = tgt := by simpa using h
      subst htg
      have hnil : r7 = [] := by
        cases r7 with
        | nil => rfl
        | cons a l => simp at hr7
      obtain ⟨e1, hne1, hall1, _⟩ := span1_inv _ _ _ _ h1
      obtain ⟨e2, hne2, hall2, _⟩ := span1_inv _ _ _ _ h2
      obtain ⟨e3, hne3, hall3, _⟩ := span1_inv _ _ _ _ h3
      obtain ⟨e4, hne4, hall4, _⟩ := span1_inv _ _ _ _ h4
      obtain ⟨e5, hne5, hall5, _⟩ := span1_inv _ _ _ _ h5
      obtain ⟨e6, hne6, hall6, _⟩ := span1_inv _ _ _ _ h6
      obtain ⟨e7, hne7, hall7, _⟩ := span1_inv _ _ _ _ h7
      refine ⟨d1, w1, d2, w2, d3, w3, hne1, List.all_eq_true.mpr hall1,
        hne2, List.all_eq_true.mpr hall2, hne3, List.all_eq_true.mpr hall3,
        hne4, List.all_eq_true.mpr hall4, hne5, List.all_eq_true.mpr hall5,
        hne6, List.all_eq_true.mpr hall6, hne7, List.all_eq_true.mpr hall7, ?_⟩
      rw [e1, e2, e3, e4, e5, e6, e7, hnil]
      simp [List.append_assoc]
  · rintro ⟨d1, w1, d2, w2, d3, w3, hd1ne, hd1a, hw1ne, hw1a, hd2ne, hd2a,
      hw2ne, hw2a, hd3ne, hd3a, hw3ne, hw3a, htne, hta, heq⟩
    subst heq
    simp only [List.append_assoc]
    have hs1 : span1 Char.isDigit
        (d1 ++ (w1 ++ (d2 ++ (w2 ++ (d3 ++ (w3 ++ tgt)))))) =
        some (d1, w1 ++ (d2 ++ (w2 ++ (d3 ++ (w3 ++ tgt))))) :=
      span1_decomp _ _ _ hd1ne (List.all_eq_true.mp hd1a)
        (head_of_append_all isWs Char.isDigit w1 _ hw1ne
          (List.all_eq_true.mp hw1a) ws_not_digit)
    have hs2 : span1 isWs (w1 ++ (d2 ++ (w2 ++ (d3 ++ (w3 ++ tgt))))) =
        some (w1, d2 ++ (w2 ++ (d3 ++ (w3 ++ tgt)))) :=
      span1_decomp _ _ _ hw1ne (List.all_eq_true.mp hw1a)
        (head_of_append_all Char.isDigit isWs d2 _ hd2ne
          (List.all_eq_true.mp hd2a) digit_not_ws)
    have hs3 : span1 Char.isDigit (d2 ++ (w2 ++ (d3 ++ (w3 ++ tgt)))) =
        some (d2, w2 ++ (d3 ++ (w3 ++ tgt))) :=
      span1_decomp _ _ _ hd2ne (List.all_eq_true.mp hd2a)
        (head_of_append_all isWs Char.isDigit w2 _ hw2ne
          (List.all_eq_true.mp hw2a) ws_not_digit)
    have hs4 : span1 isWs (w2 ++ (d3 ++ (w3 ++ tgt))) =
        some (w2, d3 ++ (w3 ++ tgt)) :=
      span1_decomp _ _ _ hw2ne (List.all_eq_true.mp hw2a)
        (head_of_append_all Char.isDigit isWs d3 _ hd3ne
          (List.all_eq_true.mp hd3a) digit_not_ws)
    have hs5 : span1 Char.isDigit (d3 ++ (w3 ++ tgt)) =
        some (d3, w3 ++ tgt) :=
      span1_decomp _ _ _ hd3ne (List.all_eq_true.mp hd3a)
        (head_of_append_all isWs Char.isDigit w3 _ hw3ne
          (List.all_eq_true.mp hw3a) ws_not_digit)
    have hs6 : span1 isWs (w3 ++ tgt) = some (w3, tgt) :=
      span1_decomp _ _ _ hw3ne (List.all_eq_true.mp hw3a)
        (head_all_not isSrvTargetChar isWs tgt
          (List.all_eq_true.mp hta) target_not_ws)
    have hs7 : span1 isSrvTargetChar tgt = some (tgt, []) := by
      have hx := span1_decomp isSrvTargetChar tgt []
        htne (List.all_eq_true.mp hta) (fun c hc => by simp at hc)
      rwa [List.append_nil] at hx
    unfold matchSrv
    rw [hs1]
    dsimp only
    rw [hs2]
    dsimp only
    rw [hs3]
    dsimp only
    rw [hs4]
    dsimp only
    rw [hs5]
    dsimp only
    rw [hs6]
    dsimp only
    rw [hs7]
    rfl

/-- C7 (amended).  An SRV record's (dot-stripped) rdata is decoded if and
only if it is three nonempty digit runs, each followed by a nonempty
whitespace run, then a nonempty target made only of letters, digits, dots
and hyphens reaching the end of the string (`SrvShape` — the target class
is `[a-zA-Z0-9.-]`, so a non-numeric target containing any other character,
e.g. an underscore, is NOT decoded).  When the rdata matches, a single
trailing dot is stripped from the captured target and
`ALIAS[target] = name` is written; when it does not match, the line is
skipped and the table is unchanged. -/
theorem c7_srv_target_charset :
    (∀ s tgt : List Char, matchSrv s = some tgt ↔ SrvShape s tgt) ∧
    (∀ (t : DnsTable) (line : String) (q0 r0 d0 tgt : List Char),
        metaSkip line.data = false →
        matchLine line.data = some (q0, r0, d0) →
        String.mk r0 = "SRV" →
        matchSrv (stripDotL d0) = some tgt →
        processLine t line =
          writeAlias t (String.mk (stripDotL tgt)) (String.mk (stripDotL q0))) ∧
    (∀ (t : DnsTable) (line : String) (q0 r0 d0 : List Char),
        metaSkip line.data = false →
        matchLine line.data = some (q0, r0, d0) →
        String.mk r0 = "SRV" →
        matchSrv (stripDotL d0) = none →
        processLine t line = t) := by
  refine ⟨matchSrv_eq_some_iff, ?_, ?_⟩
  · intro t line q0 r0 d0 tgt hm hl ht hsrv
    unfold processLine
    dsimp only
    simp [hm, hl, ht, hsrv, rtypeNames]
  · intro t line q0 r0 d0 hm hl ht hsrv
    unfold processLine
    dsimp only
    simp [hm, hl, ht, hsrv, rtypeNames]

/-- C7 witness: a well-formed SRV line is decoded into an ALIAS write, at a
concrete input discharging every hypothesis of the decode conjunct. -/
theorem c7_srv_target_charset_witness :
    (metaSkip "x.local 5 IN SRV 0 0 443 server.example.com".data = false ∧
     matchLine "x.local 5 IN SRV 0 0 443 server.example.com".data =
       some ("x.local".data, "SRV".data, "0 0 443 server.example.com".data) ∧
     matchSrv (stripDotL "0 0 443 server.example.com".data) =
       some "server.example.com".data) ∧
    processLine emptyTable "x.local 5 IN SRV 0 0 443 server.example.com" =
      writeAlias emptyTable "server.example.com" "x.local" :=
  ⟨⟨by decide, by decide, by decide⟩,
   c7_srv_target_charset.2.1 emptyTable
     "x.local 5 IN SRV 0 0 443 server.example.com"
     "x.local".data "SRV".data "0 0 443 server.example.com".data
     "server.example.com".data
     (by decide) (by decide) (by decide) (by decide)⟩

/-! ### Characterization of the pattern_ptr matcher -/

theorem litMatch_eq_some_iff (p s r : List Char) :
    litMatch p s = some r ↔ s = p ++ r := by
  induction p generalizing s with
  | nil => simp [litMatch, eq_comm]
  | cons c p ih =>
    cases s with
    | nil => simp [litMatch]
    | cons d s2 =>
      by_cases hcd : (c == d) = true
      · have hc : c = d := eq_of_beq hcd
        subst hc
        simp [litMatch, ih]
      · have hne : ¬ (d = c) := fun he => hcd (by simp [he])
        simp [litMatch, hcd, hne]

theorem litMatch_isSome_iff (p s : List Char) :
    (litMatch p s).isSome = true ↔ ∃ r, s = p ++ r := by
  cases h : litMatch p s with
  | none =>
    simp only [h, Option.isSome_none]
    constructor
    · intro hx
      simp at hx
    · rintro ⟨r, rfl⟩
      have hx := (litMatch_eq_some_iff p (p ++ r) r).mpr rfl
      rw [hx] at h
      exact Option.noConfusion h
  | some r2 =>
    simp only [h, Option.isSome_some]
    constructor
    · intro _
      exact ⟨r2, (litMatch_eq_some_iff p s r2).mp h⟩
    · intro _
      trivial

theorem ptrTail_iff (s : List Char) :
    ptrTail s = true ↔
      ∃ c1 c2 rest, s = c1 :: (inAddrChars ++ (c2 :: (arpaChars ++ rest))) := by
  cases s with
  | nil => simp [ptrTail, anyChar]
  | cons c1 r1 =>
    cases hlit : litMatch inAddrChars r1 with
    | none =>
      simp only [ptrTail, anyChar, hlit]
      constructor
      · intro hx
        simp at hx
      · rintro ⟨c1', c2, rest, heq⟩
        obtain ⟨-, hr1⟩ := List.cons.inj heq
        have hx := (litMatch_eq_some_iff inAddrChars r1 _).mpr hr1
        rw [hx] at hlit
        exact Option.noConfusion hlit
    | some r2 =>
      have hr1 : r1 = inAddrChars ++ r2 := (litMatch_eq_some_iff _ _ _).mp hlit
      subst hr1
      cases r2 with
      | nil =>
        simp only [ptrTail, anyChar, hlit]
        constructor
        · intro hx
          simp at hx
        · rintro ⟨c1', c2, rest, heq⟩
          obtain ⟨-, hr⟩ := List.cons.inj heq
          have hx := List.append_cancel_left hr
          exact Option.noConfusion (congrArg List.head? hx)
      | cons c2 r3 =>
        simp only [ptrTail, anyChar, hlit]
        rw [litMatch_isSome_iff]
        constructor
        · rintro ⟨rest, rfl⟩
          exact ⟨c1, c2, rest, rfl⟩
        · rintro ⟨c1', c2', rest, heq⟩
          obtain ⟨-, hr⟩ := List.cons.inj heq
          have h2 := List.append_cancel_left hr
          obtain ⟨-, hr3⟩ := List.cons.inj h2
          exact ⟨rest, hr3⟩

theorem firstSome_isSome_iff (cands : List (List Char × List Char))
    (k : List Char → Option (List (List Char))) :
    (firstSome cands k).isSome = true ↔
      ∃ o r, (o, r) ∈ cands ∧ (k r).isSome = true := by
  induction cands with
  | nil => simp [firstSome]
  | cons pr rest ih =>
    obtain ⟨o0, r0⟩ := pr
    cases hk : k r0 with
    | some gs =>
      simp only [firstSome, hk, Option.isSome_some]
      constructor
      · intro _
        exact ⟨o0, r0, List.mem_cons_self _ _, by rw [hk]; rfl⟩
      · intro _
        trivial
    | none =>
      simp only [firstSome, hk]
      rw [ih]
      constructor
      · rintro ⟨o, r, hmem, hkr⟩
        exact ⟨o, r, List.mem_cons_of_mem _ hmem, hkr⟩
      · rintro ⟨o, r, hmem, hkr⟩
        rcases List.mem_cons.mp hmem with heq | hmem2
        · obtain ⟨rfl, rfl⟩ := Prod.mk.inj heq
          rw [hk] at hkr
          simp at hkr
        · exact ⟨o, r, hmem2, hkr⟩

theorem mem_if_singleton (c : Bool) (x y : List Char × List Char) :
    (x ∈ (if c = true then [y] else [])) ↔ (c = true ∧ x = y) := by
  cases c <;> simp

theorem mem_if_singleton_inv (c : Bool) (x y : List Char × List Char)
    (h : x ∈ (if c = true then [y] else [])) : c = true ∧ x = y := by
  cases hc : c with
  | true =>
    rw [hc] at h
    simp at h
    exact ⟨rfl, h⟩
  | false =>
    rw [hc] at h
    simp at h

theorem octetCands1_sound (s o r : List Char)
    (h : (o, r) ∈ octetCands1 s) : isOctetStr o = true ∧ s = o ++ r := by
  cases s with
  | nil => simp [octetCands1] at h
  | cons a s1 =>
    simp only [octetCands1] at h
    obtain ⟨hc, heq⟩ := mem_if_singleton_inv _ _ _ h
    obtain ⟨rfl, rfl⟩ := Prod.mk.inj heq
    exact ⟨by simp [isOctetStr, hc], rfl⟩

theorem octetCands2_sound (s o r : List Char)
    (h : (o, r) ∈ octetCands2 s) : isOctetStr o = true ∧ s = o ++ r := by
  cases s with
  | nil => simp [octetCands2] at h
  | cons a s1 =>
    cases s1 with
    | nil => simp [octetCands2] at h
    | cons b s2 =>
      simp only [octetCands2] at h
      obtain ⟨hc, heq⟩ := mem_if_singleton_inv _ _ _ h
      obtain ⟨rfl, rfl⟩ := Prod.mk.inj heq
      exact ⟨by simp [isOctetStr, hc], rfl⟩

theorem octetCands3_sound (s o r : List Char)
    (h : (o, r) ∈ octetCands3 s) : isOctetStr o = true ∧ s = o ++ r := by
  cases s with
  | nil => simp [octetCands3] at h
  | cons a s1 =>
    cases s1 with
    | nil => simp [octetCands3] at h
    | cons b s2 =>
      cases s2 with
      | nil => simp [octetCands3] at h
      | cons c s3 =>
        simp only [octetCands3] at h
        rcases List.mem_append.mp h with h12 | h3
        · rcases List.mem_append.mp h12 with h1 | h2
          · obtain ⟨hc, heq⟩ := mem_if_singleton_inv _ _ _ h1
            obtain ⟨rfl, rfl⟩ := Prod.mk.inj heq
            exact ⟨by simp [isOctetStr, hc], rfl⟩
          · obtain ⟨hc, heq⟩ := mem_if_singleton_inv _ _ _ h2
            obtain ⟨rfl, rfl⟩ := Prod.mk.inj heq
            exact ⟨by simp [isOctetStr, hc], rfl⟩
        · obtain ⟨hc, heq⟩ := mem_if_singleton_inv _ _ _ h3
          obtain ⟨rfl, rfl⟩ := Prod.mk.inj heq
          exact ⟨by simp [isOctetStr, hc], rfl⟩

theorem octetCands_sound (s o r : List Char)
    (h : (o, r) ∈ octetCands s) : isOctetStr o = true ∧ s = o ++ r := by
  rw [octetCands] at h
  rcases List.mem_append.mp h with h32 | h1
  · rcases List.mem_append.mp h32 with h3 | h2
    · exact octetCands3_sound s o r h3
    · exact octetCands2_sound s o r h2
  · exact octetCands1_sound s o r h1

theorem octetCands_complete (o r : List Char) (h : isOctetStr o = true) :
    (o, r) ∈ octetCands (o ++ r) := by
  rw [octetCands]
  rcases o with _ | ⟨x, _ | ⟨y, _ | ⟨z, _ | ⟨w, o4⟩⟩⟩⟩
  · simp [isOctetStr] at h
  · simp only [isOctetStr] at h
    apply List.mem_append_right
    simp only [List.cons_append, List.nil_append]
    simp [octetCands1, h]
  · simp only [isOctetStr] at h
    apply List.mem_append_left
    apply List.mem_append_right
    simp only [List.cons_append, List.nil_append]
    simp [octetCands2, h]
  · simp only [isOctetStr] at h
    apply List.mem_append_left
    apply List.mem_append_left
    simp only [List.cons_append, List.nil_append]
    rw [Bool.or_eq_true] at h
    rcases h with h | h
    · rw [Bool.or_eq_true] at h
      rcases h with h | h
      · simp [octetCands3, h]
      · simp [octetCands3, h]
    · simp [octetCands3, h]
  · simp [isOctetStr] at h

theorem afterDot_isSome (k : List Char → Option (List (List Char)))
    (s : List Char) :
    (afterDot k s).isSome = true ↔
      ∃ r, s = '.' :: r ∧ (k r).isSome = true := by
  cases s with
  | nil => simp [afterDot]
  | cons c r =>
    by_cases hc : c = '.'
    · subst hc
      simp [afterDot]
    · simp [afterDot, hc]

theorem ptr_step_shape (g : List Char → Option (List (List Char)))
    (s : List Char) :
    (firstSome (octetCands s) (afterDot g)).isSome = true ↔
      ∃ o r, isOctetStr o = true ∧ s = o ++ ('.' :: r) ∧
        (g r).isSome = true := by
  rw [firstSome_isSome_iff]
  constructor
  · rintro ⟨o, r, hmem, hk⟩
    obtain ⟨ho, hs⟩ := octetCands_sound s o r hmem
    obtain ⟨r2, hr2, hg⟩ := (afterDot_isSome g r).mp hk
    subst hr2
    exact ⟨o, r2, ho, hs, hg⟩
  · rintro ⟨o, r, ho, hs, hg⟩
    subst hs
    refine ⟨o, '.' :: r, octetCands_complete o ('.' :: r) ho, ?_⟩
    rw [afterDot_isSome]
    exact ⟨r, rfl, hg⟩

theorem ptrLast_shape (s : List Char) :
    (ptrLast s).isSome = true ↔
      ∃ o4 c1 c2 rest, isOctetStr o4 = true ∧
        s = o4 ++ (c1 :: (inAddrChars ++ (c2 :: (arpaChars ++ rest)))) := by
  rw [ptrLast, firstSome_isSome_iff]
  constructor
  · rintro ⟨o, r, hmem, hk⟩
    obtain ⟨ho, hs⟩ := octetCands_sound s o r hmem
    subst hs
    have hpt : ptrTail r = true := by
      cases hx : ptrTail r with
      | true => rfl
      | false =>
        rw [hx] at hk
        simp at hk
    obtain ⟨c1, c2, rest, rfl⟩ := (ptrTail_iff r).mp hpt
    exact ⟨o, c1, c2, rest, ho, rfl⟩
  · rintro ⟨o4, c1, c2, rest, ho, rfl⟩
    refine ⟨o4, _, octetCands_complete o4 _ ho, ?_⟩
    have hpt : ptrTail
        (c1 :: (inAddrChars ++ (c2 :: (arpaChars ++ rest)))) = true :=
      (ptrTail_iff _).mpr ⟨c1, c2, rest, rfl⟩
    simp [hpt]

/-- C3 (amended).  A qname is classified as a reverse-lookup name if and
only if it BEGINS WITH four dot-separated octets (each 0–255, via the
byte-range-aware octet group) followed by one arbitrary character, the
literal `in-addr`, one arbitrary character and the literal `arpa`
(`ReversePtrShape`): the dots of `.in-addr.arpa` are unescaped wildcards
and `pattern_ptr` carries no end anchor, so any trailing characters are
accepted.  PTR lines whose (dot-stripped) qname is not of this shape take
the generic-alias branch, writing `ALIAS[qname] = rdata`. -/
theorem c3_ptr_shape_iff :
    (∀ s : List Char, (ptrMatch s).isSome = true ↔ ReversePtrShape s) ∧
    (∀ (t : DnsTable) (line : String) (q0 r0 d0 : List Char),
        metaSkip line.data = false →
        matchLine line.data = some (q0, r0, d0) →
        String.mk r0 = "PTR" →
        ptrMatch (stripDotL q0) = none →
        processLine t line =
          writeAlias t (String.mk (stripDotL q0)) (String.mk (stripDotL d0))) := by
  constructor
  · intro s
    constructor
    · intro h
      obtain ⟨o1, r1, h1, rfl, hg1⟩ := (ptr_step_shape ptrO2 s).mp h
      obtain ⟨o2, r2, h2, rfl, hg2⟩ := (ptr_step_shape ptrO3 r1).mp hg1
      obtain ⟨o3, r3, h3, rfl, hg3⟩ := (ptr_step_shape ptrLast r2).mp hg2
      obtain ⟨o4, c1, c2, rest, h4, rfl⟩ := (ptrLast_shape r3).mp hg3
      exact ⟨o1, o2, o3, o4, c1, c2, rest, h1, h2, h3, h4, rfl⟩
    · rintro ⟨o1, o2, o3, o4, c1, c2, rest, h1, h2, h3, h4, rfl⟩
      apply (ptr_step_shape ptrO2 _).mpr
      refine ⟨o1, _, h1, rfl, ?_⟩
      apply (ptr_step_shape ptrO3 _).mpr
      refine ⟨o2, _, h2, rfl, ?_⟩
      apply (ptr_step_shape ptrLast _).mpr
      refine ⟨o3, _, h3, rfl, ?_⟩
      apply (ptrLast_shape _).mpr
      exact ⟨o4, c1, c2, rest, h4, rfl⟩
  · intro t line q0 r0 d0 hm hl ht hp
    unfold processLine
    dsimp only
    simp [hm, hl, ht, hp, rtypeNames]

/-- C3 witness: a PTR line whose qname does not begin with the reverse
shape takes the generic-alias branch at a concrete input discharging every
hypothesis of the branch conjunct. -/
theorem c3_ptr_shape_iff_witness :
    (metaSkip "one.example 5 IN PTR two.example".data = false ∧
     matchLine "one.example 5 IN PTR two.example".data =
       some ("one.example".data, "PTR".data, "two.example".data) ∧
     ptrMatch (stripDotL "one.example".data) = none) ∧
    processLine emptyTable "one.example 5 IN PTR two.example" =
      writeAlias emptyTable "one.example" "two.example" :=
  ⟨⟨by decide, by decide, by decide⟩,
   c3_ptr_shape_iff.2 emptyTable "one.example 5 IN PTR two.example"
     "one.example".data "PTR".data "two.example".data
     (by decide) (by decide) (by decide) (by decide)⟩
